import Mathlib

/-!
Verification development for the `docver` deployment tool.

The Rust sources under `src/` are shallowly embedded below:
`versions.rs` (version registry, ordering, serialization, netlify rewrites)
and `git.rs` (fast-import commit builder, identity resolution, failure
classification).  Hash maps are modelled as association lists (only their
lookup behaviour is observable in the claims), `BTreeMap` as a
key-sorted association list maintained by an ordered insert, byte
strings as Lean `String`s with lengths taken as UTF-8 byte sizes, the
environment as an explicit `String → Option String` function, and the
wall clock as an explicit parameter.
-/

namespace Docver

/-! ### Model of the `semver` crate (dependency of `versions.rs`)

`parse_semver_like` in `versions.rs` calls `semver::Version::parse` and
compares the results with `semver::Version`'s `Ord` instance.  The crate
is not part of this repository, so it is modelled here: a semantic
version is `MAJOR.MINOR.PATCH` (numeric, no leading zeros), an optional
`-` prerelease (dot-separated identifiers over `[0-9A-Za-z-]`, numeric
ones without leading zeros) and an optional `+` build-metadata suffix
(dot-separated identifiers over `[0-9A-Za-z-]`).  Comparison follows the
crate: major, minor, patch, then prerelease (absence of a prerelease
sorts greater; identifiers compare numerically when both numeric,
numeric before alphanumeric, else lexicographically; a longer identifier
list with an equal prefix sorts greater), and finally build metadata
(the crate's total order: absence first, per-identifier digits compared
by zero-trimmed value then raw length, digits before non-digits). -/

def semverIdChar (c : Char) : Bool :=
  c.isDigit || c.isAlpha || c = '-'

def noLeadZero (cs : List Char) : Bool :=
  match cs with
  | [] => true
  | [_] => true
  | c :: _ => c != '0'

def digitsToNat (cs : List Char) : Nat :=
  cs.foldl (fun n c => n * 10 + (c.toNat - 48)) 0

def parseNumericId (s : String) : Option Nat :=
  let cs := s.toList
  if cs.length != 0 && cs.all Char.isDigit && noLeadZero cs then
    some (digitsToNat cs)
  else
    none

def validPreId (s : String) : Bool :=
  let cs := s.toList
  cs.length != 0 && cs.all semverIdChar &&
    (if cs.all Char.isDigit then noLeadZero cs else true)

def validBuildId (s : String) : Bool :=
  let cs := s.toList
  cs.length != 0 && cs.all semverIdChar

/-- Splits a character list on every occurrence of `c` (model of
`str::split`, also of Lean's `String.splitOn` for a one-character
separator, kept structural so that proofs can evaluate it). -/
def splitCharsOn (c : Char) : List Char → List (List Char)
  | [] => [[]]
  | x :: xs =>
    match splitCharsOn c xs with
    | [] => [[]]
    | h :: t => if x = c then [] :: h :: t else (x :: h) :: t

/-- Splits a character list at the first occurrence of `c`; the second
component is `none` when `c` does not occur. -/
def splitFirstChar (c : Char) : List Char → List Char × Option (List Char)
  | [] => ([], none)
  | x :: xs =>
    if x = c then ([], some xs)
    else
      let r := splitFirstChar c xs
      (x :: r.1, r.2)

structure SemVer where
  major : Nat
  minor : Nat
  patch : Nat
  pre : List String
  build : List String
deriving DecidableEq, Repr

/-- Model of `semver::Version::parse`. -/
def parseSemver (s : String) : Option SemVer :=
  let p1 := splitFirstChar '+' s.toList
  let p2 := splitFirstChar '-' p1.1
  match (splitCharsOn '.' p2.1).map String.mk with
  | [ma, mi, pa] =>
    match parseNumericId ma, parseNumericId mi, parseNumericId pa with
    | some major, some minor, some patch =>
      let preIds : Option (List String) :=
        match p2.2 with
        | none => some []
        | some cs =>
          let ids := (splitCharsOn '.' cs).map String.mk
          if ids.all validPreId then some ids else none
      let buildIds : Option (List String) :=
        match p1.2 with
        | none => some []
        | some cs =>
          let ids := (splitCharsOn '.' cs).map String.mk
          if ids.all validBuildId then some ids else none
      match preIds, buildIds with
      | some pr, some bd => some ⟨major, minor, patch, pr, bd⟩
      | _, _ => none
    | _, _, _ => none
  | _ => none

/-- Prerelease identifier comparison of the `semver` crate: numeric
identifiers compare numerically (for identifiers without leading zeros,
length-then-lexicographic equals numeric order), numeric sorts before
alphanumeric, alphanumeric compare lexicographically. -/
def compareIdsPre (a b : String) : Ordering :=
  match a.toList.all Char.isDigit, b.toList.all Char.isDigit with
  | true, true => (compare a.length b.length).then (compare a b)
  | true, false => .lt
  | false, true => .gt
  | false, false => compare a b

def comparePreLists : List String → List String → Ordering
  | [], [] => .eq
  | [], _ :: _ => .lt
  | _ :: _, [] => .gt
  | a :: as, b :: bs => (compareIdsPre a b).then (comparePreLists as bs)

/-- Prerelease comparison: an absent prerelease (empty list) sorts
greater than any present one. -/
def comparePre (a b : List String) : Ordering :=
  match a, b with
  | [], [] => .eq
  | [], _ => .gt
  | _, [] => .lt
  | _, _ => comparePreLists a b

/-- Build-metadata identifier comparison of the `semver` crate, a total
order consistent with equality: both-numeric identifiers compare by
zero-trimmed value and then by raw length (so 0 < 00 < 1 < 01 < 10),
digits sort before non-digits, otherwise lexicographic. -/
def compareIdsBuild (a b : String) : Ordering :=
  match a.toList.all Char.isDigit, b.toList.all Char.isDigit with
  | true, true =>
    let av := String.mk (a.toList.dropWhile (· = '0'))
    let bv := String.mk (b.toList.dropWhile (· = '0'))
    ((compare av.length bv.length).then (compare av bv)).then
      (compare a.length b.length)
  | true, false => .lt
  | false, true => .gt
  | false, false => compare a b

def compareBuildLists : List String → List String → Ordering
  | [], [] => .eq
  | [], _ :: _ => .lt
  | _ :: _, [] => .gt
  | a :: as, b :: bs => (compareIdsBuild a b).then (compareBuildLists as bs)

/-- Build-metadata comparison: absent build metadata sorts first. -/
def compareBuild (a b : List String) : Ordering :=
  match a, b with
  | [], [] => .eq
  | [], _ => .lt
  | _, [] => .gt
  | _, _ => compareBuildLists a b

/-- Model of `semver::Version`'s `Ord`: major, minor, patch, prerelease,
then build metadata. -/
def SemVer.cmp (a b : SemVer) : Ordering :=
  (compare a.major b.major).then
    ((compare a.minor b.minor).then
      ((compare a.patch b.patch).then
        ((comparePre a.pre b.pre).then (compareBuild a.build b.build))))

/-! ### `versions.rs`: `Version` and its ordering -/

/-- Struct `Version` from `versions.rs`: a tag plus an optional title. -/
structure Version where
  tag : String
  title : Option String
deriving DecidableEq, Repr

def Version.new (tag : String) (title : Option String) : Version :=
  ⟨tag, title⟩

/-- Function `parse_semver_like` from `versions.rs`: strip every leading `v`/`V`
(`trim_start_matches` with a char set strips repeatedly), try a full
semver parse, else coerce the leading numeric dotted prefix by padding
missing components with `0` and parse that. -/
def parse_semver_like (tag : String) : Option SemVer :=
  let trimmed := String.mk (tag.toList.dropWhile (fun c => c = 'v' || c = 'V'))
  match parseSemver trimmed with
  | some v => some v
  | none =>
    let npfx := trimmed.toList.takeWhile (fun c => c.isDigit || c = '.')
    if npfx.length != 0 then
      let parts := (splitCharsOn '.' npfx).map String.mk
      if parts.all (fun p => p.toList.length != 0 && p.toList.all Char.isDigit) then
        parseSemver (String.intercalate "." (parts ++ List.replicate (3 - parts.length) "0"))
      else none
    else none

/-- The `Ord` impl for `Version` in `versions.rs`: semver tags compare
by reversed semantic value, non-semver tags sort before semver tags, and
two non-semver tags compare reverse-lexicographically. -/
def Version.cmp (a b : Version) : Ordering :=
  match parse_semver_like a.tag, parse_semver_like b.tag with
  | some va, some vb => SemVer.cmp vb va
  | some _, none => .gt
  | none, some _ => .lt
  | none, none => compare b.tag a.tag

/-! ### `versions.rs`: the registry

`HashMap` is modelled as an association list: `mapLookup` returns the
value of the first matching key and `mapInsert` replaces in place, so on
lists with distinct keys both have exactly the map's lookup/insert
behaviour; iteration order of a `HashMap` is arbitrary, which the list
order represents. -/

/-- Concatenation of a list of rendered fragments (the sequential
`write!` appends of the source). -/
def strConcat (l : List String) : String :=
  l.foldr (fun a b => a ++ b) ""

def mapLookup {α : Type} (k : String) : List (String × α) → Option α
  | [] => none
  | p :: rest => if p.1 = k then some p.2 else mapLookup k rest

def mapInsert {α : Type} (k : String) (v : α) : List (String × α) → List (String × α)
  | [] => [(k, v)]
  | p :: rest => if p.1 = k then (k, v) :: rest else p :: mapInsert k v rest

/-- Struct `Versions` from `versions.rs`: tag-keyed version map plus
alias-to-tag map. -/
structure Versions where
  versions : List (String × Version)
  aliases : List (String × String)
deriving DecidableEq, Repr

/-- The stored versions, `versions.values()`. -/
def Versions.values (vs : Versions) : List Version :=
  vs.versions.map (·.2)

def Versions.by_tag (vs : Versions) (tag : String) : Option Version :=
  mapLookup tag vs.versions

def Versions.by_alias (vs : Versions) (a : String) : Option Version :=
  (mapLookup a vs.aliases).bind (fun v => mapLookup v vs.versions)

/-- Method `Versions::search`: filters the stored versions with the predicate
`v.tag == q || aliases.get(q).map(|av| av == &v.tag).is_some()` —
note the `.is_some()` applied to the result of `.map(..)`. -/
def Versions.search (vs : Versions) (tagOrAlias : String) : List Version :=
  vs.values.filter (fun v =>
    v.tag == tagOrAlias
      || ((mapLookup tagOrAlias vs.aliases).map (fun av => av == v.tag)).isSome)

/-- Method `Versions::add`: insert-or-replace the version and rebind each given
alias to it.  (`HashSet` iteration order is arbitrary; the alias set is
passed as a list.) -/
def Versions.add (vs : Versions) (version_tag : String) (title : Option String)
    (aliases : List String) : Versions :=
  let version := Version.new version_tag title
  { versions := mapInsert version_tag version vs.versions
    aliases := aliases.foldl (fun m a => mapInsert a version_tag m) vs.aliases }

/-- Method `Versions::netlify_rewrites`: one rewrite line per alias binding,
remembering the tag of the alias equal to `default_alias`; afterwards a
catch-all line when that tag was found. -/
def Versions.netlify_rewrites (vs : Versions) (default_alias : String) : String :=
  let step := fun (acc : String × Option String) (p : String × String) =>
    (acc.1 ++ "/" ++ p.1 ++ "/* /" ++ p.2 ++ "/:splat 200\n",
     if p.1 = default_alias then some p.2 else acc.2)
  let r := vs.aliases.foldl step ("", none)
  match r.2 with
  | some default_tag => r.1 ++ "/* /" ++ default_tag ++ "/:splat 200\n"
  | none => r.1

/-! ### `versions.rs`: the persisted document -/

/-- The serde intermediate struct `VersionWithAliases`. -/
structure VersionWithAliases where
  version : String
  title : Option String
  aliases : List String
deriving DecidableEq, Repr

/-- Stable insertion into a `Version.cmp`-sorted list (model of
`Vec::sort` on versions; ties keep relative order, which is arbitrary
anyway because `HashMap` iteration order is). -/
def insertByCmp (x : Version) : List Version → List Version
  | [] => [x]
  | y :: ys =>
    match Version.cmp x y with
    | .gt => y :: insertByCmp x ys
    | _ => x :: y :: ys

def sortByCmp (l : List Version) : List Version :=
  l.foldr insertByCmp []

/-- All aliases currently bound to `tag`
(`aliases.iter().filter(|(_, v)| **v == tag).map(|(a, _)| a)`). -/
def aliasesFor (aliases : List (String × String)) (tag : String) : List String :=
  (aliases.filter (fun p => p.2 = tag)).map (·.1)

/-- The `Serialize` impl for `Versions`: sort the stored versions, then
emit one `VersionWithAliases` per version with the title defaulted to
the tag and the aliases bound to that tag. -/
def Versions.to_document (vs : Versions) : List VersionWithAliases :=
  (sortByCmp vs.values).map (fun v =>
    { version := v.tag
      title := some (v.title.getD v.tag)
      aliases := aliasesFor vs.aliases v.tag })

/-- Loop of the `Deserialize` impl for `Versions`: error on a repeated
tag (the source inserts and then checks the returned previous value;
checked here by a lookup before the insert), and bind each listed alias
to the element's tag. -/
def from_document_go :
    List VersionWithAliases → List (String × Version) → List (String × String) →
      Except String Versions
  | [], vmap, amap => .ok ⟨vmap, amap⟩
  | v :: rest, vmap, amap =>
    if (mapLookup v.version vmap).isSome then
      .error "duplicate version tag"
    else
      from_document_go rest (mapInsert v.version (Version.new v.version v.title) vmap)
        (v.aliases.foldl (fun m a => mapInsert a v.version m) amap)

def Versions.from_document (items : List VersionWithAliases) : Except String Versions :=
  from_document_go items [] []

/-! ### The JSON layer (serde_json, dependency)

Enough of a JSON value model to express field presence: the derived
`Deserialize` for `VersionWithAliases` requires `version` (string) and
`aliases` (array of strings), errors on a duplicated known field, reads
a missing or `null` `title` as `None`, and ignores unknown fields. -/

inductive Json where
  | null
  | str (s : String)
  | num (n : Int)
  | arr (xs : List Json)
  | obj (fields : List (String × Json))
deriving Repr

def decodeStr : Json → Except String String
  | .str s => .ok s
  | _ => .error "invalid type: expected a string"

def decodeStrList : Json → Except String (List String)
  | .arr xs => xs.mapM decodeStr
  | _ => .error "invalid type: expected an array"

def fieldCount (fields : List (String × Json)) (k : String) : Nat :=
  (fields.filter (fun p => p.1 = k)).length

/-- Derived `Deserialize` for `VersionWithAliases`: `version` and
`aliases` required, `title : Option<String>` absent or `null` ↦ `None`. -/
def decodeVersionWithAliases : Json → Except String VersionWithAliases
  | .obj fields =>
    if fieldCount fields "version" > 1 || fieldCount fields "title" > 1
        || fieldCount fields "aliases" > 1 then
      .error "duplicate field"
    else do
      let version ←
        match mapLookup "version" fields with
        | some j => decodeStr j
        | none => .error "missing field version"
      let title ←
        match mapLookup "title" fields with
        | none => .ok none
        | some .null => .ok none
        | some (.str s) => .ok (some s)
        | some _ => .error "invalid type: expected a string or null"
      let aliases ←
        match mapLookup "aliases" fields with
        | some j => decodeStrList j
        | none => .error "missing field aliases"
      .ok ⟨version, title, aliases⟩
  | _ => .error "invalid type: expected an object"

/-- Derived `Serialize` for `VersionWithAliases`. -/
def encodeVersionWithAliases (v : VersionWithAliases) : Json :=
  .obj
    [("version", .str v.version),
     ("title", match v.title with | some s => .str s | none => .null),
     ("aliases", .arr (v.aliases.map .str))]

/-- Serializing a registry to a JSON document. -/
def Versions.to_json (vs : Versions) : Json :=
  .arr (vs.to_document.map encodeVersionWithAliases)

/-- Deserializing a registry from a JSON document. -/
def Versions.from_json (j : Json) : Except String Versions :=
  match j with
  | .arr xs => xs.mapM decodeVersionWithAliases >>= Versions.from_document
  | _ => .error "invalid type: expected a sequence"

/-- Method `Versions::from_git`: run `git show` for the versions file, parse
the output, and fall back to the empty registry on any error
(`unwrap_or_default`).  The `git show` outcome and the JSON-text parser
(`serde_json::from_str`, text layer not in src) are explicit
parameters. -/
def Versions.from_git (show_result : Except String String)
    (parse : String → Except String Versions) : Versions :=
  match show_result >>= parse with
  | .ok v => v
  | .error _ => ⟨[], []⟩

/-! ### `git.rs`: the fast-import commit builder

`BTreeMap` is modelled as a key-sorted association list maintained by an
ordered insert.  The process environment is an explicit
`String → Option String`, the wall clock an explicit `now` string, and
file contents are strings whose `len()` is the UTF-8 byte size. -/

/-- The constant `CARGO_PKG_NAME` comes from the crate manifest, which is not under
`src/`.  Modelled from the spec: a tool-branded bot identity built from
the package name, here `docver`. -/
def DEFAULT_AUTHOR_NAME : String := "docver[bot]"

def DEFAULT_AUTHOR_EMAIL : String := "docver[bot]@users.noreply.github.io"

/-- Function `sanitize_identity_part`: removes angle brackets and newlines. -/
def sanitize_identity_part (s : String) : String :=
  String.mk (s.toList.filter (fun c => c ≠ '<' && c ≠ '>' && c ≠ '\n'))

/-- Function `get_env_value`: read `GIT_<scope>_<field>` and sanitize it. -/
def get_env_value (env : String → Option String) (scope field : String) : Option String :=
  (env ("GIT_" ++ scope ++ "_" ++ field)).map sanitize_identity_part

/-- Method `Commit::now_when`: seconds since epoch rendered with a `+0000`
zone. -/
def now_when (secs : Int) : String :=
  toString secs ++ " +0000"

/-- The single `FileEntry::Inline` variant. -/
structure FileEntry where
  mode : Nat
  data : String
deriving DecidableEq, Repr

structure Commit where
  refname : String
  author : Option (String × String × String)
  committer : Option (String × String × String)
  message : String
  fromRev : Option String
  delete_all : Bool
  deletes : List String
  files : List (String × FileEntry)
deriving DecidableEq, Repr

def Commit.new (refname : String) : Commit :=
  ⟨refname, none, none, "", none, false, [], []⟩

def Commit.message_ (c : Commit) (m : String) : Commit :=
  { c with message := m }

def Commit.parent (c : Commit) (commit : String) : Commit :=
  { c with fromRev := some commit }

/-- Ordered insert of a key into a sorted key list (model of
`BTreeMap<String, ()>::insert`). -/
def btreeInsertKey (k : String) : List String → List String
  | [] => [k]
  | x :: rest =>
    match compare k x with
    | .lt => k :: x :: rest
    | .eq => x :: rest
    | .gt => x :: btreeInsertKey k rest

/-- Ordered insert-or-replace into a key-sorted association list (model
of `BTreeMap::insert`). -/
def btreeInsert {α : Type} (k : String) (v : α) : List (String × α) → List (String × α)
  | [] => [(k, v)]
  | p :: rest =>
    match compare k p.1 with
    | .lt => (k, v) :: p :: rest
    | .eq => (k, v) :: rest
    | .gt => p :: btreeInsert k v rest

def Commit.delete_path (c : Commit) (path : String) : Commit :=
  { c with deletes := btreeInsertKey path c.deletes }

def Commit.add_bytes (c : Commit) (path : String) (mode : Nat) (data : String) : Commit :=
  { c with files := btreeInsert path ⟨mode, data⟩ c.files }

/-- Folding a whole list of additions through `Commit::add_bytes`. -/
def Commit.addAll (c : Commit) (ops : List (String × FileEntry)) : Commit :=
  ops.foldl (fun acc p => acc.add_bytes p.1 p.2.mode p.2.data) c

/-- The content and mode of the last insertion for a path among a list
of additions (`None` when the path was never added). -/
def lastWins (p : String) (ops : List (String × FileEntry)) : Option FileEntry :=
  ops.foldl (fun a o => if o.1 = p then some o.2 else a) none

/-- Method `Commit::resolve_author`: explicit override, else `GIT_AUTHOR_*`,
else (for name and email) `GIT_COMMITTER_*`, else the built-in default;
the date falls back to the current wall clock. -/
def Commit.resolve_author (c : Commit) (env : String → Option String) (now : String) :
    String × String × String :=
  match c.author with
  | some a => a
  | none =>
    (((get_env_value env "AUTHOR" "NAME").or (get_env_value env "COMMITTER" "NAME")).getD
       DEFAULT_AUTHOR_NAME,
     ((get_env_value env "AUTHOR" "EMAIL").or (get_env_value env "COMMITTER" "EMAIL")).getD
       DEFAULT_AUTHOR_EMAIL,
     (get_env_value env "AUTHOR" "DATE").getD now)

/-- Method `Commit::resolve_committer`: explicit override, else
`GIT_COMMITTER_*`, else the supplied defaults (the resolved author
fields at the call site in `write_to`). -/
def Commit.resolve_committer (c : Commit) (env : String → Option String)
    (default_name default_email default_when : String) : String × String × String :=
  match c.committer with
  | some a => a
  | none =>
    ((get_env_value env "COMMITTER" "NAME").getD default_name,
     (get_env_value env "COMMITTER" "EMAIL").getD default_email,
     (get_env_value env "COMMITTER" "DATE").getD default_when)

/-- Function `name_field`: empty stays empty, otherwise a trailing space is
appended. -/
def name_field (name : String) : String :=
  if name = "" then "" else name ++ " "

/-- Big-endian octal digit characters, via structural recursion on a
fuel bound (`fuel ≥ m` suffices, since `m / 8 < m` for `m ≥ 8`). -/
def octCharsGo : Nat → Nat → List Char
  | 0, _ => []
  | fuel + 1, m =>
    if m < 8 then [Nat.digitChar m]
    else octCharsGo fuel (m / 8) ++ [Nat.digitChar (m % 8)]

/-- Big-endian octal digit characters of `m` (empty for `0`; only used
zero-padded below, where the two renderings agree with Rust's). -/
def octChars (m : Nat) : List Char :=
  octCharsGo m m

/-- Reads a big-endian octal digit string back into a number. -/
def octValChars (cs : List Char) : Nat :=
  cs.foldl (fun a c => a * 8 + (c.toNat - 48)) 0

/-- Rust's `{:06o}` format: octal, zero-padded to a minimum width of
six digits. -/
def fmtOctal6 (m : Nat) : String :=
  String.mk (List.replicate (6 - (octChars m).length) '0' ++ octChars m)

/-- One `M`-line plus length-prefixed inline payload of `write_to`. -/
def renderFileEntry (p : String) (e : FileEntry) : String :=
  "M " ++ fmtOctal6 e.mode ++ " inline " ++ p ++ "\n" ++
    "data " ++ toString e.data.utf8ByteSize ++ "\n" ++ e.data ++ "\n"

/-- Method `Commit::write_to`: the rendered fast-import stream. -/
def Commit.write_to (c : Commit) (env : String → Option String) (now : String) : String :=
  let a := c.resolve_author env now
  let co := c.resolve_committer env a.1 a.2.1 a.2.2
  "commit " ++ c.refname ++ "\n" ++
    "author " ++ name_field a.1 ++ "<" ++ a.2.1 ++ "> " ++ a.2.2 ++ "\n" ++
    "committer " ++ name_field co.1 ++ "<" ++ co.2.1 ++ "> " ++ co.2.2 ++ "\n" ++
    "data " ++ toString c.message.utf8ByteSize ++ "\n" ++
    c.message ++ "\n" ++
    (match c.fromRev with | some f => "from " ++ f ++ "\n" | none => "") ++
    (if c.delete_all then "deleteall\n" else "") ++
    strConcat (c.deletes.map (fun p => "D " ++ p ++ "\n")) ++
    strConcat (c.files.map (fun pe => renderFileEntry pe.1 pe.2)) ++
    "done\n"

/-- Model of Rust's `str::trim`: drop leading and trailing
whitespace. -/
def strTrim (s : String) : String :=
  String.mk (((s.toList.dropWhile Char.isWhitespace).reverse.dropWhile
    Char.isWhitespace).reverse)

/-- Model of Rust's `str::contains` for string patterns. -/
def hasPrefixChars : List Char → List Char → Bool
  | [], _ => true
  | _ :: _, [] => false
  | a :: as, b :: bs => a = b && hasPrefixChars as bs

def strContains (hay pat : String) : Bool :=
  (List.range (hay.toList.length + 1)).any
    (fun i => hasPrefixChars pat.toList (hay.toList.drop i))

/-- The two failure shapes of `Commit::run` after a nonzero exit. -/
inductive RunError where
  | nonFastForward (refname : String) (stderr : String)
  | executionFailed (stderr : String)
deriving DecidableEq, Repr

/-- The `anyhow::bail!` message of each failure shape. -/
def RunError.message : RunError → String
  | .nonFastForward r st =>
    "git fast-import refused to update " ++ r ++
      " (non-fast-forward). The new commit must descend from the current branch tip. Hint: base the import on the tip (set a parent) or recreate/reset the branch.\nFull error: " ++ st
  | .executionFailed st => "git fast-import failed: " ++ st

/-- Exit-status handling of `Commit::run` (the spawn/pipe plumbing is
process territory; the classification of the captured diagnostics is
what is modelled): on success `Ok(())`, else trim the diagnostics and
classify by the non-fast-forward pattern. -/
def classify_run (c : Commit) (exit_success : Bool) (stderr : String) : Except RunError Unit :=
  if exit_success then .ok ()
  else
    let st := strTrim stderr
    if strContains st "Not updating"
        && (strContains st "does not contain" || strContains st "non-fast-forward") then
      .error (.nonFastForward c.refname st)
    else
      .error (.executionFailed st)

/-! ### Concrete instances used by witnesses and counterexamples -/

/-- Environment with only `GIT_COMMITTER_NAME` set. -/
def envCommitterOnly : String → Option String :=
  fun k => if k = "GIT_COMMITTER_NAME" then some "Eve" else none

/-- Registry with two versions and one alias. -/
def regTwo : Versions :=
  ⟨[("dev", ⟨"dev", none⟩), ("1.0.0", ⟨"1.0.0", none⟩)], [("latest", "dev")]⟩

/-- Registry of the spec's alias-redirect scenario. -/
def regC9w : Versions :=
  ⟨[("dev", ⟨"dev", some "Development"⟩), ("1.0.0", ⟨"1.0.0", some "1.0.0"⟩)],
   [("latest", "dev"), ("stable", "1.0.0")]⟩

/-- Two file additions in descending path order. -/
def opsBA : List (String × FileEntry) :=
  [("b.txt", ⟨0o100644, "B"⟩), ("a.txt", ⟨0o100644, "A"⟩)]

/-- The same two additions in ascending path order. -/
def opsAB : List (String × FileEntry) :=
  [("a.txt", ⟨0o100644, "A"⟩), ("b.txt", ⟨0o100644, "B"⟩)]

/-! ### Theorems -/

/-- C7: when the query string is a bound alias key, `search` returns
every stored version — the alias-match arm of the filter predicate calls
`.is_some()` on the mapped comparison, so it holds for every candidate
as soon as the alias key exists, regardless of the alias's target. -/
theorem search_returns_all_for_bound_alias (vs : Versions) (q : String)
    (h : (mapLookup q vs.aliases).isSome = true) :
    vs.search q = vs.values := by
  refine List.filter_eq_self.mpr ?_
  intro v _
  rcases Option.isSome_iff_exists.mp h with ⟨t, ht⟩
  simp [ht]

theorem search_returns_all_witness :
    (mapLookup "latest" regTwo.aliases).isSome = true ∧
    regTwo.search "latest" = regTwo.values :=
  ⟨by decide, search_returns_all_for_bound_alias regTwo "latest" (by decide)⟩

/-- C8: a zero exit succeeds; on a nonzero exit the trimmed diagnostics
are classified — the non-fast-forward pattern (contains "Not updating"
together with "does not contain" or "non-fast-forward") produces the
NonFastForward error whose message carries the remediation hint, any
other diagnostics produce the generic execution failure carrying the
diagnostic text. -/
theorem run_exit_classification (c : Commit) (stderr : String) :
    classify_run c true stderr = .ok () ∧
    ((strContains (strTrim stderr) "Not updating"
        && (strContains (strTrim stderr) "does not contain"
            || strContains (strTrim stderr) "non-fast-forward")) = true →
      classify_run c false stderr = .error (.nonFastForward c.refname (strTrim stderr))) ∧
    ((strContains (strTrim stderr) "Not updating"
        && (strContains (strTrim stderr) "does not contain"
            || strContains (strTrim stderr) "non-fast-forward")) = false →
      classify_run c false stderr = .error (.executionFailed (strTrim stderr))) ∧
    (∀ r st, (RunError.nonFastForward r st).message =
        "git fast-import refused to update " ++ r ++
          " (non-fast-forward). The new commit must descend from the current branch tip. Hint: base the import on the tip (set a parent) or recreate/reset the branch.\nFull error: " ++ st) ∧
    (∀ st, (RunError.executionFailed st).message =
        "git fast-import failed: " ++ st) := by
  refine ⟨rfl, ?_, ?_, fun r st => rfl, fun st => rfl⟩ <;>
    · intro h
      simp [classify_run, h]

theorem run_exit_classification_witness :
    classify_run (Commit.new "refs/heads/gh-pages") false
        "error: Not updating refs/heads/gh-pages (non-fast-forward)" =
      .error (.nonFastForward "refs/heads/gh-pages"
        "error: Not updating refs/heads/gh-pages (non-fast-forward)") ∧
    classify_run (Commit.new "refs/heads/gh-pages") false "fatal: corrupt input" =
      .error (.executionFailed "fatal: corrupt input") :=
  ⟨((run_exit_classification (Commit.new "refs/heads/gh-pages")
      "error: Not updating refs/heads/gh-pages (non-fast-forward)").2.1 (by decide)).trans rfl,
   ((run_exit_classification (Commit.new "refs/heads/gh-pages")
      "fatal: corrupt input").2.2.1 (by decide)).trans rfl⟩

/-- C3 (amended): `from_git` swallows every failure — a failing
`git show` and a present-but-unparseable document both collapse to the
empty registry; only a successful parse is returned.  Its return type
has no error channel at all. -/
theorem from_git_error_swallowing (show_result : Except String String)
    (parse : String → Except String Versions) :
    (∀ e, show_result = .error e → Versions.from_git show_result parse = ⟨[], []⟩) ∧
    (∀ s e, show_result = .ok s → parse s = .error e →
      Versions.from_git show_result parse = ⟨[], []⟩) ∧
    (∀ s v, show_result = .ok s → parse s = .ok v →
      Versions.from_git show_result parse = v) := by
  refine ⟨?_, ?_, ?_⟩
  · intro e he
    subst he
    rfl
  · intro s e hs hp
    subst hs
    simp [Versions.from_git, bind, Except.bind, hp]
  · intro s v hs hp
    subst hs
    simp [Versions.from_git, bind, Except.bind, hp]

theorem from_git_witness :
    Versions.from_git (.error "fatal: invalid object name") (fun _ => .ok regTwo) = ⟨[], []⟩ ∧
    Versions.from_git (.ok "[]") (fun _ => .ok regTwo) = regTwo :=
  ⟨(from_git_error_swallowing _ _).1 "fatal: invalid object name" rfl,
   (from_git_error_swallowing _ _).2.2 "[]" regTwo rfl rfl⟩

/-- C3 counterexample: a document that is present but malformed is not
surfaced as an error — `from_git` silently yields the empty registry. -/
theorem from_git_malformed_counterexample :
    Versions.from_git (.ok "not json")
      (fun _ => .error "Failed to parse versions.json") = ⟨[], []⟩ := rfl

/-- C5 (amended): identity resolution order.  Committer fields fall
back override → `GIT_COMMITTER_*` → resolved author field.  Author name
and email however fall back override → `GIT_AUTHOR_*` →
`GIT_COMMITTER_*` → built-in default, so an author field can be taken
from a committer-scoped environment value; the author date falls back
override → `GIT_AUTHOR_DATE` → current wall clock. -/
theorem identity_resolution (c : Commit) (env : String → Option String) (now : String) :
    (∀ a, c.author = some a → c.resolve_author env now = a) ∧
    (c.author = none →
      c.resolve_author env now =
        (((get_env_value env "AUTHOR" "NAME").or (get_env_value env "COMMITTER" "NAME")).getD
           DEFAULT_AUTHOR_NAME,
         ((get_env_value env "AUTHOR" "EMAIL").or (get_env_value env "COMMITTER" "EMAIL")).getD
           DEFAULT_AUTHOR_EMAIL,
         (get_env_value env "AUTHOR" "DATE").getD now)) ∧
    (∀ a dn de dw, c.committer = some a → c.resolve_committer env dn de dw = a) ∧
    (c.committer = none → ∀ dn de dw,
      c.resolve_committer env dn de dw =
        ((get_env_value env "COMMITTER" "NAME").getD dn,
         (get_env_value env "COMMITTER" "EMAIL").getD de,
         (get_env_value env "COMMITTER" "DATE").getD dw)) := by
  refine ⟨?_, ?_, ?_, ?_⟩
  · intro a h
    simp [Commit.resolve_author, h]
  · intro h
    simp [Commit.resolve_author, h]
  · intro a dn de dw h
    simp [Commit.resolve_committer, h]
  · intro h
    intro dn de dw
    simp [Commit.resolve_committer, h]

theorem identity_resolution_witness :
    (Commit.new "r").resolve_author envCommitterOnly "5 +0000" =
      ("Eve", DEFAULT_AUTHOR_EMAIL, "5 +0000") ∧
    (Commit.new "r").resolve_committer envCommitterOnly "n" "e" "w" = ("Eve", "e", "w") :=
  ⟨((identity_resolution (Commit.new "r") envCommitterOnly "5 +0000").2.1 rfl).trans rfl,
   (((identity_resolution (Commit.new "r") envCommitterOnly "5 +0000").2.2.2 rfl) "n" "e" "w").trans rfl⟩

/-- C5 counterexample: with no override and no author-scoped value, the
author name is taken from the committer-scoped `GIT_COMMITTER_NAME`
environment value rather than the built-in bot default. -/
theorem author_from_committer_env_counterexample :
    (Commit.new "r").resolve_author envCommitterOnly "0 +0000" =
      ("Eve", DEFAULT_AUTHOR_EMAIL, "0 +0000") ∧
    "Eve" ≠ DEFAULT_AUTHOR_NAME := ⟨rfl, by decide⟩

/-- C2: the three-tier comparison rule of `impl Ord for Version`.  When
both tags are semver-parseable the comparison is the reversed semantic
comparison (so the numerically greater tag orders first); a
non-parseable tag orders strictly before any parseable one; two
non-parseable tags compare reverse-lexicographically on the raw tag
strings. -/
theorem version_cmp_three_tier (x y : Version) :
    (∀ a b, parse_semver_like x.tag = some a → parse_semver_like y.tag = some b →
      Version.cmp x y = SemVer.cmp b a) ∧
    (parse_semver_like x.tag = none → ∀ b, parse_semver_like y.tag = some b →
      Version.cmp x y = .lt) ∧
    (∀ a, parse_semver_like x.tag = some a → parse_semver_like y.tag = none →
      Version.cmp x y = .gt) ∧
    (parse_semver_like x.tag = none → parse_semver_like y.tag = none →
      Version.cmp x y = compare y.tag x.tag) := by
  refine ⟨?_, ?_, ?_, ?_⟩ <;> intros <;> simp_all [Version.cmp]

theorem version_cmp_three_tier_witness :
    Version.cmp ⟨"1.2.10", none⟩ ⟨"1.2.3", none⟩ =
      SemVer.cmp ⟨1, 2, 3, [], []⟩ ⟨1, 2, 10, [], []⟩ ∧
    Version.cmp ⟨"main", none⟩ ⟨"1.2.3", none⟩ = .lt ∧
    Version.cmp ⟨"1.2.3", none⟩ ⟨"main", none⟩ = .gt ∧
    Version.cmp ⟨"main", none⟩ ⟨"dev", none⟩ = compare "dev" "main" :=
  ⟨(version_cmp_three_tier ⟨"1.2.10", none⟩ ⟨"1.2.3", none⟩).1
      ⟨1, 2, 10, [], []⟩ ⟨1, 2, 3, [], []⟩ (by decide) (by decide),
   (version_cmp_three_tier ⟨"main", none⟩ ⟨"1.2.3", none⟩).2.1
      (by decide) ⟨1, 2, 3, [], []⟩ (by decide),
   (version_cmp_three_tier ⟨"1.2.3", none⟩ ⟨"main", none⟩).2.2.1
      ⟨1, 2, 3, [], []⟩ (by decide) (by decide),
   (version_cmp_three_tier ⟨"main", none⟩ ⟨"dev", none⟩).2.2.2 (by decide) (by decide)⟩

/-- Decoding a list of JSON strings recovers the underlying strings
(stated on the accumulator loop of `List.mapM`). -/
theorem mapM_loop_decodeStr (al : List String) :
    ∀ acc : List String,
      List.mapM.loop decodeStr (al.map Json.str) acc = Except.ok (acc.reverse ++ al) := by
  induction al with
  | nil =>
    intro acc
    simp [List.mapM.loop, pure, Except.pure]
  | cons a t ih =>
    intro acc
    simp [List.mapM.loop, decodeStr, bind, Except.bind, ih]

theorem mapM_decodeStr_strs (al : List String) :
    (al.map Json.str).mapM decodeStr = Except.ok al := by
  simpa [List.mapM] using mapM_loop_decodeStr al []

/-- C4 (amended): `title` is optional on read.  With the required
`version` and `aliases` fields present (and no duplicated known field),
an element lacking `title` — or carrying `null` — parses successfully to
a version with no title, and a string `title` is taken verbatim. -/
theorem title_optional_on_read (fields : List (String × Json)) (t : String) (al : List String)
    (h1 : fieldCount fields "version" ≤ 1) (h2 : fieldCount fields "title" ≤ 1)
    (h3 : fieldCount fields "aliases" ≤ 1)
    (hv : mapLookup "version" fields = some (.str t))
    (ha : mapLookup "aliases" fields = some (.arr (al.map .str))) :
    (mapLookup "title" fields = none →
      decodeVersionWithAliases (.obj fields) = .ok ⟨t, none, al⟩) ∧
    (mapLookup "title" fields = some .null →
      decodeVersionWithAliases (.obj fields) = .ok ⟨t, none, al⟩) ∧
    (∀ s, mapLookup "title" fields = some (.str s) →
      decodeVersionWithAliases (.obj fields) = .ok ⟨t, some s, al⟩) := by
  have hcond : (decide (fieldCount fields "version" > 1)
      || decide (fieldCount fields "title" > 1)
      || decide (fieldCount fields "aliases" > 1)) = false := by
    simp only [Bool.or_eq_false_iff, decide_eq_false_iff_not]
    omega
  refine ⟨?_, ?_, ?_⟩
  · intro hti
    simp [decodeVersionWithAliases, hv, ha, hti, hcond, decodeStr, decodeStrList,
      bind, Except.bind, pure, Except.pure, List.mapM, mapM_loop_decodeStr]
  · intro hti
    simp [decodeVersionWithAliases, hv, ha, hti, hcond, decodeStr, decodeStrList,
      bind, Except.bind, pure, Except.pure, List.mapM, mapM_loop_decodeStr]
  · intro s hti
    simp [decodeVersionWithAliases, hv, ha, hti, hcond, decodeStr, decodeStrList,
      bind, Except.bind, pure, Except.pure, List.mapM, mapM_loop_decodeStr]

theorem title_optional_on_read_witness :
    decodeVersionWithAliases
        (.obj [("version", Json.str "dev"), ("aliases", Json.arr [Json.str "latest"])]) =
      .ok ⟨"dev", none, ["latest"]⟩ :=
  (title_optional_on_read [("version", Json.str "dev"), ("aliases", Json.arr [Json.str "latest"])]
    "dev" ["latest"] (by decide) (by decide) (by decide) rfl rfl).1 rfl

/-- C4 counterexample: a document element lacking the `title` field
parses successfully (to a version with no title) instead of failing. -/
theorem missing_title_parses_counterexample :
    decodeVersionWithAliases (.obj [("version", .str "1.0.0"), ("aliases", .arr [])]) =
      .ok ⟨"1.0.0", none, []⟩ ∧
    Versions.from_json (.arr [.obj [("version", .str "1.0.0"), ("aliases", .arr [])]]) =
      .ok ⟨[("1.0.0", ⟨"1.0.0", none⟩)], []⟩ := ⟨rfl, rfl⟩

/-- Octal digit characters read back as their value for digits below
eight. -/
theorem digitChar_octVal (d : Nat) (h : d < 8) : (Nat.digitChar d).toNat - 48 = d := by
  interval_cases d <;> rfl

theorem octValChars_append_digit (l : List Char) (c : Char) :
    octValChars (l ++ [c]) = octValChars l * 8 + (c.toNat - 48) := by
  simp [octValChars, List.foldl_append]

theorem octCharsGo_val (fuel : Nat) : ∀ m, m ≤ fuel → octValChars (octCharsGo fuel m) = m := by
  induction fuel with
  | zero =>
    intro m hm
    interval_cases m
    rfl
  | succ fuel ih =>
    intro m hm
    by_cases h : m < 8
    · simp [octCharsGo, h, octValChars, digitChar_octVal m h]
    · have hdiv : m / 8 ≤ fuel := by
        have : m / 8 < m := Nat.div_lt_self (by omega) (by omega)
        omega
      simp only [octCharsGo, if_neg h, octValChars_append_digit, ih (m / 8) hdiv,
        digitChar_octVal (m % 8) (Nat.mod_lt m (by omega))]
      omega

theorem octCharsGo_len (fuel : Nat) :
    ∀ m k, m ≤ fuel → m < 8 ^ k → 1 ≤ k → (octCharsGo fuel m).length ≤ k := by
  induction fuel with
  | zero =>
    intro m k _ _ _
    simp [octCharsGo]
  | succ fuel ih =>
    intro m k hm hk h1
    by_cases h : m < 8
    · simp [octCharsGo, h]
      omega
    · have hk2 : 2 ≤ k := by
        by_contra hc
        have : k = 1 := by omega
        subst this
        simp [pow_one] at hk
        omega
      have hdiv : m / 8 ≤ fuel := by
        have : m / 8 < m := Nat.div_lt_self (by omega) (by omega)
        omega
      have hlt : m / 8 < 8 ^ (k - 1) := by
        have h8 : (8 : Nat) ^ k = 8 ^ (k - 1) * 8 := by
          have : k - 1 + 1 = k := by omega
          calc (8 : Nat) ^ k = 8 ^ (k - 1 + 1) := by rw [this]
          _ = 8 ^ (k - 1) * 8 := by rw [pow_succ]
        refine (Nat.div_lt_iff_lt_mul (by omega)).mpr ?_
        omega
      have := ih (m / 8) (k - 1) hdiv hlt (by omega)
      simp only [octCharsGo, if_neg h, List.length_append, List.length_cons,
        List.length_nil]
      omega

/-- C6 (amended): the `M` line renders the file mode with Rust's
`{:06o}` — a zero-padded six-digit octal field (not three digits): for
every mode below `8^6` the rendered field has exactly six characters,
zero-padded on the left, and reads back as the mode. -/
theorem mode_rendered_six_digit_octal (p : String) (e : FileEntry) (h : e.mode < 8 ^ 6) :
    renderFileEntry p e =
      "M " ++ fmtOctal6 e.mode ++ " inline " ++ p ++ "\n" ++
        "data " ++ toString e.data.utf8ByteSize ++ "\n" ++ e.data ++ "\n" ∧
    (fmtOctal6 e.mode).length = 6 ∧
    octValChars (fmtOctal6 e.mode).toList = e.mode := by
  refine ⟨rfl, ?_, ?_⟩
  · have hlen : (octChars e.mode).length ≤ 6 :=
      octCharsGo_len e.mode e.mode 6 (le_refl _) h (by omega)
    show (List.replicate (6 - (octChars e.mode).length) '0' ++ octChars e.mode).length = 6
    simp only [List.length_append, List.length_replicate]
    omega
  · show octValChars (List.replicate (6 - (octChars e.mode).length) '0' ++ octChars e.mode)
      = e.mode
    have hz : ∀ z : Nat, (List.replicate z '0').foldl
        (fun a c => a * 8 + (c.toNat - 48)) 0 = 0 := by
      intro z
      induction z with
      | zero => rfl
      | succ z ih => simpa [List.replicate_succ, List.foldl_cons] using ih
    simp only [octValChars, List.foldl_append, hz]
    exact octCharsGo_val e.mode e.mode (le_refl _)

theorem mode_rendered_six_digit_octal_witness :
    renderFileEntry "versions.json" ⟨0o100644, "[]"⟩ =
      "M 100644 inline versions.json\ndata 2\n[]\n" ∧
    (fmtOctal6 0o100644).length = 6 ∧
    octValChars (fmtOctal6 0o100644).toList = 0o100644 := by
  have h := mode_rendered_six_digit_octal "versions.json" ⟨0o100644, "[]"⟩ (by decide)
  exact ⟨h.1.trans rfl, h.2.1, h.2.2⟩

/-- C6 counterexample: the rendered mode field is zero-padded to six
digits, not three — mode `0o644` renders as `000644`, not `644`. -/
theorem mode_three_digit_counterexample :
    renderFileEntry "f" ⟨0o644, "x"⟩ = "M 000644 inline f\ndata 1\nx\n" ∧
    fmtOctal6 0o644 ≠ "644" := ⟨rfl, by decide⟩

/-- The string/default-tag fold of `netlify_rewrites` in closed form:
the accumulated string is the concatenation of one line per binding, and
the remembered tag is the last binding whose alias equals `d`. -/
theorem netlify_foldl (d : String) (l : List (String × String)) :
    ∀ (s0 : String) (t0 : Option String),
      l.foldl (fun (acc : String × Option String) (p : String × String) =>
          (acc.1 ++ "/" ++ p.1 ++ "/* /" ++ p.2 ++ "/:splat 200\n",
           if p.1 = d then some p.2 else acc.2)) (s0, t0) =
        (s0 ++ strConcat (l.map (fun p => "/" ++ p.1 ++ "/* /" ++ p.2 ++ "/:splat 200\n")),
         l.foldl (fun (a : Option String) (p : String × String) =>
           if p.1 = d then some p.2 else a) t0) := by
  induction l with
  | nil =>
    intro s0 t0
    simp [strConcat]
  | cons p l ih =>
    intro s0 t0
    simp only [List.foldl_cons, List.map_cons, strConcat, List.foldr_cons, ih]
    rw [Prod.mk.injEq]
    refine ⟨?_, rfl⟩
    simp [String.append_assoc]

theorem foldl_lastBound_of_not_mem (d : String) (l : List (String × String))
    (h : d ∉ l.map (·.1)) :
    ∀ a : Option String,
      l.foldl (fun (acc : Option String) (p : String × String) =>
        if p.1 = d then some p.2 else acc) a = a := by
  induction l with
  | nil => intro a; rfl
  | cons p l ih =>
    intro a
    simp only [List.map_cons, List.mem_cons] at h
    push_neg at h
    simp only [List.foldl_cons, if_neg (fun hpd : p.1 = d => h.1 hpd.symm)]
    exact ih h.2 a

/-- With unique alias keys, the last binding for `d` seen by the fold is
the map lookup of `d`. -/
theorem lastBound_eq_mapLookup (d : String) (l : List (String × String))
    (h : (l.map (·.1)).Nodup) :
    l.foldl (fun (a : Option String) (p : String × String) =>
      if p.1 = d then some p.2 else a) none = mapLookup d l := by
  induction l with
  | nil => rfl
  | cons p l ih =>
    simp only [List.map_cons, List.nodup_cons] at h
    simp only [List.foldl_cons, mapLookup]
    by_cases hpd : p.1 = d
    · rw [if_pos hpd, if_pos hpd, foldl_lastBound_of_not_mem d l (hpd ▸ h.1) (some p.2)]
    · rw [if_neg hpd, if_neg hpd, ih h.2]

/-- C9: the alias-redirect document is exactly one
`/<alias>/* /<tag>/:splat 200` line per (alias, tag) binding, followed —
exactly when the default alias is a bound alias key — by the catch-all
`/* /<tag>/:splat 200` line for that alias's tag, emitted last. -/
theorem netlify_rewrites_lines (vs : Versions) (d : String)
    (h : (vs.aliases.map (·.1)).Nodup) :
    vs.netlify_rewrites d =
      strConcat (vs.aliases.map (fun p => "/" ++ p.1 ++ "/* /" ++ p.2 ++ "/:splat 200\n")) ++
        (match mapLookup d vs.aliases with
         | some t => "/* /" ++ t ++ "/:splat 200\n"
         | none => "") := by
  simp only [Versions.netlify_rewrites]
  rw [netlify_foldl d vs.aliases "" none, lastBound_eq_mapLookup d vs.aliases h]
  cases hm : mapLookup d vs.aliases with
  | none => simp
  | some t => simp [String.append_assoc]

theorem netlify_rewrites_lines_witness :
    (regC9w.aliases.map (·.1)).Nodup ∧
    regC9w.netlify_rewrites "latest" =
      "/latest/* /dev/:splat 200\n/stable/* /1.0.0/:splat 200\n/* /dev/:splat 200\n" :=
  ⟨by decide, (netlify_rewrites_lines regC9w "latest" (by decide)).trans rfl⟩

theorem btreeInsert_mem {α : Type} (k : String) (v : α) (l : List (String × α)) :
    ∀ q ∈ btreeInsert k v l, q = (k, v) ∨ q ∈ l := by
  induction l with
  | nil =>
    intro q hq
    simp only [btreeInsert, List.mem_singleton] at hq
    exact Or.inl hq
  | cons p l ih =>
    intro q hq
    unfold btreeInsert at hq
    split at hq
    · rcases List.mem_cons.mp hq with h | h
      · exact Or.inl h
      · exact Or.inr h
    · rcases List.mem_cons.mp hq with h | h
      · exact Or.inl h
      · exact Or.inr (List.mem_cons_of_mem p h)
    · rcases List.mem_cons.mp hq with h | h
      · exact Or.inr (h ▸ List.mem_cons_self p l)
      · rcases ih q h with h' | h'
        · exact Or.inl h'
        · exact Or.inr (List.mem_cons_of_mem p h')

/-- The `BTreeMap::insert` semantics at the lookup level: the inserted key
maps to the new value, every other key is untouched. -/
theorem btreeInsert_lookup {α : Type} (k : String) (v : α) (l : List (String × α))
    (k' : String) :
    mapLookup k' (btreeInsert k v l) = if k = k' then some v else mapLookup k' l := by
  induction l with
  | nil => rfl
  | cons p l ih =>
    unfold btreeInsert
    split
    · rfl
    · next hcmp =>
      have hkp : k = p.1 := compare_eq_iff_eq.mp hcmp
      show (if k = k' then some v else mapLookup k' l) = _
      by_cases hk : k = k'
      · rw [if_pos hk, if_pos hk]
      · rw [if_neg hk, if_neg hk]
        show _ = (if p.1 = k' then some p.2 else mapLookup k' l)
        rw [if_neg (fun hpk => hk (hkp.trans hpk))]
    · next hcmp =>
      have hkp : p.1 < k := compare_gt_iff_gt.mp hcmp
      show (if p.1 = k' then some p.2 else mapLookup k' (btreeInsert k v l)) = _
      rw [ih]
      by_cases hpk : p.1 = k'
      · have hne : ¬ k = k' := fun hh => absurd (hh.trans hpk.symm) (ne_of_gt hkp)
        rw [if_pos hpk, if_neg hne]
        show _ = (if p.1 = k' then some p.2 else mapLookup k' l)
        rw [if_pos hpk]
      · rw [if_neg hpk]
        by_cases hk : k = k'
        · rw [if_pos hk, if_pos hk]
        · rw [if_neg hk, if_neg hk]
          show _ = (if p.1 = k' then some p.2 else mapLookup k' l)
          rw [if_neg hpk]

/-- Ordered insert preserves strictly-ascending key order. -/
theorem btreeInsert_sorted {α : Type} (k : String) (v : α) (l : List (String × α))
    (h : l.Pairwise (fun p q => p.1 < q.1)) :
    (btreeInsert k v l).Pairwise (fun p q => p.1 < q.1) := by
  induction l with
  | nil => simp [btreeInsert]
  | cons p l ih =>
    rcases List.pairwise_cons.mp h with ⟨hp, hl⟩
    unfold btreeInsert
    split
    · next hcmp =>
      have hk : k < p.1 := compare_lt_iff_lt.mp hcmp
      refine List.pairwise_cons.mpr ⟨?_, h⟩
      intro q hq
      rcases List.mem_cons.mp hq with rfl | hq
      · exact hk
      · exact lt_trans hk (hp q hq)
    · next hcmp =>
      have hk : k = p.1 := compare_eq_iff_eq.mp hcmp
      refine List.pairwise_cons.mpr ⟨?_, hl⟩
      intro q hq
      rw [show (k, v).1 = p.1 from hk]
      exact hp q hq
    · next hcmp =>
      have hk : p.1 < k := compare_gt_iff_gt.mp hcmp
      refine List.pairwise_cons.mpr ⟨?_, ih hl⟩
      intro q hq
      rcases btreeInsert_mem k v l q hq with rfl | hq
      · exact hk
      · exact hp q hq

theorem addAll_files_lookup (c : Commit) (ops : List (String × FileEntry)) (p : String) :
    mapLookup p (c.addAll ops).files =
      ops.foldl (fun a o => if o.1 = p then some o.2 else a) (mapLookup p c.files) := by
  induction ops generalizing c with
  | nil => rfl
  | cons o t ih =>
    show mapLookup p ((c.add_bytes o.1 o.2.mode o.2.data).addAll t).files = _
    rw [ih]
    simp only [List.foldl_cons]
    congr 1
    show mapLookup p (btreeInsert o.1 ⟨o.2.mode, o.2.data⟩ c.files) = _
    rw [btreeInsert_lookup]

theorem addAll_files_sorted (c : Commit) (ops : List (String × FileEntry))
    (h : c.files.Pairwise (fun p q => p.1 < q.1)) :
    (c.addAll ops).files.Pairwise (fun p q => p.1 < q.1) := by
  induction ops generalizing c with
  | nil => exact h
  | cons o t ih =>
    show ((c.add_bytes o.1 o.2.mode o.2.data).addAll t).files.Pairwise _
    refine ih _ ?_
    show (btreeInsert o.1 ⟨o.2.mode, o.2.data⟩ c.files).Pairwise _
    exact btreeInsert_sorted _ _ _ h

theorem mapLookup_eq_none_iff {α : Type} (k : String) (l : List (String × α)) :
    mapLookup k l = none ↔ k ∉ l.map (·.1) := by
  induction l with
  | nil => simp [mapLookup]
  | cons p l ih =>
    simp only [mapLookup, List.map_cons, List.mem_cons]
    by_cases hp : p.1 = k
    · simp [hp]
    · rw [if_neg hp, ih]
      constructor
      · intro h hc
        rcases hc with hc | hc
        · exact hp hc.symm
        · exact h hc
      · intro h hc
        exact h (Or.inr hc)

theorem lastWins_foldl_none (p : String) (t : List (String × FileEntry)) :
    ∀ a : Option FileEntry,
      t.foldl (fun a o => if o.1 = p then some o.2 else a) a = none ↔
        (a = none ∧ p ∉ t.map (·.1)) := by
  induction t with
  | nil =>
    intro a
    simp
  | cons o t ih =>
    intro a
    simp only [List.foldl_cons, ih, List.map_cons, List.mem_cons]
    by_cases ho : o.1 = p
    · simp [ho]
    · rw [if_neg ho]
      constructor
      · rintro ⟨h1, h2⟩
        exact ⟨h1, fun hc => hc.elim (fun hc => ho hc.symm) h2⟩
      · rintro ⟨h1, h2⟩
        exact ⟨h1, fun hc => h2 (Or.inr hc)⟩

theorem lastWins_eq_none_iff (p : String) (ops : List (String × FileEntry)) :
    lastWins p ops = none ↔ p ∉ ops.map (·.1) := by
  rw [lastWins, lastWins_foldl_none]
  simp

/-- The last-insertion-wins value is insertion-order independent when
the added paths are distinct. -/
theorem lastWins_perm (ops ops' : List (String × FileEntry)) (hp : ops.Perm ops')
    (h : (ops.map (·.1)).Nodup) (p : String) : lastWins p ops = lastWins p ops' := by
  have aux : ∀ (l l' : List (String × FileEntry)), l.Perm l' → (l.map (·.1)).Nodup →
      ∀ a : Option FileEntry,
        l.foldl (fun a o => if o.1 = p then some o.2 else a) a =
          l'.foldl (fun a o => if o.1 = p then some o.2 else a) a := by
    intro l l' hperm
    induction hperm with
    | nil => intro _ a; rfl
    | cons x h' ih =>
      intro hnd a
      simp only [List.map_cons, List.nodup_cons] at hnd
      simp only [List.foldl_cons]
      exact ih hnd.2 _
    | swap x y l =>
      intro hnd a
      simp only [List.map_cons, List.nodup_cons, List.mem_cons] at hnd
      have hxy : y.1 ≠ x.1 := fun hc => hnd.1 (Or.inl hc)
      simp only [List.foldl_cons]
      congr 1
      by_cases hx : x.1 = p
      · rw [if_pos hx, if_neg (fun hy : y.1 = p => hxy (hy.trans hx.symm)), if_pos hx]
      · rw [if_neg hx]
        by_cases hy : y.1 = p
        · rw [if_pos hy, if_pos hy]
        · rw [if_neg hy, if_neg hy, if_neg hx]
    | trans h1 h2 ih1 ih2 =>
      intro hnd a
      have hnd2 := ((h1.map (·.1)).nodup_iff).mp hnd
      rw [ih1 hnd a, ih2 hnd2 a]
  exact aux ops ops' hp h none

/-- Key-sorted association lists with equal lookups are equal. -/
theorem sorted_lookup_ext {α : Type} :
    ∀ (a b : List (String × α)),
      a.Pairwise (fun p q => p.1 < q.1) → b.Pairwise (fun p q => p.1 < q.1) →
      (∀ k, mapLookup k a = mapLookup k b) → a = b
  | [], [], _, _, _ => rfl
  | [], q :: b, _, _, hk => by
    have h := hk q.1
    simp [mapLookup] at h
  | p :: a, [], _, _, hk => by
    have h := hk p.1
    simp [mapLookup] at h
  | p :: a, q :: b, ha, hb, hk => by
    rcases List.pairwise_cons.mp ha with ⟨hpa, ha'⟩
    rcases List.pairwise_cons.mp hb with ⟨hqb, hb'⟩
    have hpq : p.1 = q.1 := by
      rcases lt_trichotomy p.1 q.1 with h | h | h
      · exfalso
        have h1 := hk p.1
        rw [show mapLookup p.1 (p :: a) = some p.2 from by simp [mapLookup]] at h1
        have : mapLookup p.1 (q :: b) = none := by
          rw [mapLookup_eq_none_iff]
          simp only [List.map_cons, List.mem_cons]
          rintro (hc | hc)
          · exact absurd (hc ▸ h) (lt_irrefl _)
          · rcases List.mem_map.mp hc with ⟨e, he, hep⟩
            exact absurd (hep ▸ hqb e he) (not_lt.mpr (le_of_lt (hep.symm ▸ h)))
        rw [this] at h1
        exact Option.noConfusion h1
      · exact h
      · exfalso
        have h1 := hk q.1
        rw [show mapLookup q.1 (q :: b) = some q.2 from by simp [mapLookup]] at h1
        have : mapLookup q.1 (p :: a) = none := by
          rw [mapLookup_eq_none_iff]
          simp only [List.map_cons, List.mem_cons]
          rintro (hc | hc)
          · exact absurd (hc ▸ h) (lt_irrefl _)
          · rcases List.mem_map.mp hc with ⟨e, he, hep⟩
            exact absurd (hep ▸ hpa e he) (not_lt.mpr (le_of_lt (hep.symm ▸ h)))
        rw [this] at h1
        exact Option.noConfusion h1.symm
    have hpv : p.2 = q.2 := by
      have h1 := hk p.1
      have e1 : mapLookup p.1 (p :: a) = some p.2 := by simp [mapLookup]
      have e2 : mapLookup p.1 (q :: b) = some q.2 := by simp [mapLookup, hpq]
      rw [e1, e2] at h1
      exact Option.some.inj h1
    have htail : ∀ k, mapLookup k a = mapLookup k b := by
      intro k
      by_cases hkp : k = p.1
      · have h1 : mapLookup k a = none := by
          rw [mapLookup_eq_none_iff]
          intro hc
          rcases List.mem_map.mp hc with ⟨e, he, hep⟩
          have he1 : e.1 = p.1 := hep.trans hkp
          exact absurd (he1 ▸ hpa e he) (lt_irrefl p.1)
        have h2 : mapLookup k b = none := by
          rw [mapLookup_eq_none_iff]
          intro hc
          rcases List.mem_map.mp hc with ⟨e, he, hep⟩
          have he1 : e.1 = q.1 := hep.trans (hkp.trans hpq)
          exact absurd (he1 ▸ hqb e he) (lt_irrefl q.1)
        rw [h1, h2]
      · have h1 := hk k
        have e1 : mapLookup k (p :: a) = mapLookup k a := by
          show (if p.1 = k then some p.2 else mapLookup k a) = mapLookup k a
          rw [if_neg (fun h => hkp h.symm)]
        have e2 : mapLookup k (q :: b) = mapLookup k b := by
          show (if q.1 = k then some q.2 else mapLookup k b) = mapLookup k b
          rw [if_neg (fun h => hkp (h.symm.trans hpq.symm))]
        rw [e1, e2] at h1
        exact h1
    have hab := sorted_lookup_ext a b ha' hb' htail
    rw [hab, Prod.ext_iff.mpr ⟨hpq, hpv⟩]

/-- C10: accumulating additions from an empty transaction yields a file
map whose paths are strictly ascending (hence exactly one entry per
distinct added path, rendered in ascending order regardless of insertion
order), whose entry for each path is the last insertion for that path, a
path is present exactly when it was added, two insertion orders of
distinct paths yield identical file maps, and `write_to` renders exactly
this map's entries contiguously before the final `done` line. -/
theorem transaction_files_spec (r : String) (ops : List (String × FileEntry)) :
    ((Commit.new r).addAll ops).files.Pairwise (fun p q => p.1 < q.1) ∧
    (∀ p, mapLookup p ((Commit.new r).addAll ops).files = lastWins p ops) ∧
    (∀ p, p ∈ ((Commit.new r).addAll ops).files.map (·.1) ↔ p ∈ ops.map (·.1)) ∧
    (∀ ops', ops.Perm ops' → (ops.map (·.1)).Nodup →
      ((Commit.new r).addAll ops).files = ((Commit.new r).addAll ops').files) ∧
    (∀ env now, ∃ s, ((Commit.new r).addAll ops).write_to env now =
      s ++ strConcat (((Commit.new r).addAll ops).files.map
        (fun pe => renderFileEntry pe.1 pe.2)) ++ "done\n") := by
  have hsort := addAll_files_sorted (Commit.new r) ops List.Pairwise.nil
  have hlook : ∀ p, mapLookup p ((Commit.new r).addAll ops).files = lastWins p ops :=
    fun p => addAll_files_lookup (Commit.new r) ops p
  refine ⟨hsort, hlook, ?_, ?_, ?_⟩
  · intro p
    rw [← not_iff_not, ← mapLookup_eq_none_iff, ← lastWins_eq_none_iff, hlook p]
  · intro ops' hperm hnd
    refine sorted_lookup_ext _ _ hsort (addAll_files_sorted (Commit.new r) ops'
      List.Pairwise.nil) ?_
    intro k
    rw [addAll_files_lookup, addAll_files_lookup]
    exact lastWins_perm ops ops' hperm hnd k
  · intro env now
    exact ⟨_, rfl⟩

theorem transaction_files_spec_witness :
    ((Commit.new "r").addAll opsBA).files = ((Commit.new "r").addAll opsAB).files ∧
    ((Commit.new "r").addAll opsBA).files.map (·.1) = ["a.txt", "b.txt"] ∧
    mapLookup "a.txt" ((Commit.new "r").addAll opsBA).files = some ⟨0o100644, "A"⟩ :=
  ⟨(transaction_files_spec "r" opsBA).2.2.2.1 opsAB (by decide) (by decide),
   by decide,
   ((transaction_files_spec "r" opsBA).2.1 "a.txt").trans rfl⟩

theorem insertByCmp_perm (x : Version) (l : List Version) :
    (insertByCmp x l).Perm (x :: l) := by
  induction l with
  | nil => exact List.Perm.refl _
  | cons y ys ih =>
    unfold insertByCmp
    split
    · exact (ih.cons y).trans (List.Perm.swap x y ys)
    · exact List.Perm.refl _

theorem sortByCmp_perm (l : List Version) : (sortByCmp l).Perm l := by
  induction l with
  | nil => exact List.Perm.refl _
  | cons x xs ih =>
    exact (insertByCmp_perm x (sortByCmp xs)).trans (ih.cons x)

/-- The `HashMap::insert` semantics at the lookup level. -/
theorem mapInsert_lookup {α : Type} (k : String) (v : α) (m : List (String × α))
    (x : String) :
    mapLookup x (mapInsert k v m) = if k = x then some v else mapLookup x m := by
  induction m with
  | nil => rfl
  | cons p m ih =>
    unfold mapInsert
    by_cases hp : p.1 = k
    · rw [if_pos hp]
      show (if k = x then some v else mapLookup x m) = _
      by_cases hk : k = x
      · rw [if_pos hk, if_pos hk]
      · rw [if_neg hk, if_neg hk]
        show _ = (if p.1 = x then some p.2 else mapLookup x m)
        rw [if_neg (fun hc => hk (hp ▸ hc))]
    · rw [if_neg hp]
      show (if p.1 = x then some p.2 else mapLookup x (mapInsert k v m)) = _
      by_cases hpx : p.1 = x
      · have hkx : ¬ k = x := fun hc => hp (hpx.trans hc.symm)
        rw [if_pos hpx, if_neg hkx]
        show _ = (if p.1 = x then some p.2 else mapLookup x m)
        rw [if_pos hpx]
      · rw [if_neg hpx, ih]
        by_cases hk : k = x
        · rw [if_pos hk, if_pos hk]
        · rw [if_neg hk, if_neg hk]
          show _ = (if p.1 = x then some p.2 else mapLookup x m)
          rw [if_neg hpx]

/-- Rebinding every alias in `al` to the same tag, at the lookup
level. -/
theorem foldl_mapInsert_lookup (al : List String) (tv : String) (x : String) :
    ∀ m0 : List (String × String),
      mapLookup x (al.foldl (fun m a => mapInsert a tv m) m0) =
        if x ∈ al then some tv else mapLookup x m0 := by
  induction al with
  | nil =>
    intro m0
    simp
  | cons a al ih =>
    intro m0
    simp only [List.foldl_cons]
    rw [ih]
    by_cases hal : x ∈ al
    · rw [if_pos hal, if_pos (List.mem_cons_of_mem a hal)]
    · rw [if_neg hal, mapInsert_lookup]
      by_cases hax : a = x
      · rw [if_pos hax, if_pos (List.mem_cons.mpr (Or.inl hax.symm))]
      · rw [if_neg hax,
          if_neg (fun hc => (List.mem_cons.mp hc).elim (fun h => hax h.symm) hal)]

/-- Searching through a `map`. -/
theorem find?_map_comp {α β : Type} (f : α → β) (p : β → Bool) (l : List α) :
    (l.map f).find? p = (l.find? (fun x => p (f x))).map f := by
  induction l with
  | nil => rfl
  | cons x l ih =>
    simp only [List.map_cons, List.find?]
    cases p (f x) <;> simp [ih]

/-- Search only depends on the predicate's values on the list. -/
theorem find?_congr_pred {α : Type} (p q : α → Bool) (l : List α)
    (h : ∀ x ∈ l, p x = q x) : l.find? p = l.find? q := by
  induction l with
  | nil => rfl
  | cons x l ih =>
    simp only [List.find?]
    rw [h x (List.mem_cons_self x l)]
    cases q x with
    | true => rfl
    | false => exact ih (fun y hy => h y (List.mem_cons_of_mem x hy))

/-- Search is permutation-invariant when at most one element
satisfies the predicate. -/
theorem find?_perm_of_unique {α : Type} (p : α → Bool) (l l' : List α) (hp : l.Perm l')
    (huniq : ∀ x ∈ l, ∀ y ∈ l, p x = true → p y = true → x = y) :
    l.find? p = l'.find? p := by
  cases h1 : l.find? p with
  | none =>
    rw [List.find?_eq_none] at h1
    symm
    rw [List.find?_eq_none]
    intro x hx
    exact h1 x (hp.mem_iff.mpr hx)
  | some x =>
    have hpx : p x = true := List.find?_some h1
    have hxl : x ∈ l := List.mem_of_find?_eq_some h1
    cases h2 : l'.find? p with
    | none =>
      rw [List.find?_eq_none] at h2
      exact absurd hpx (h2 x (hp.mem_iff.mp hxl))
    | some y =>
      have hpy : p y = true := List.find?_some h2
      have hyl : y ∈ l := hp.mem_iff.mpr (List.mem_of_find?_eq_some h2)
      rw [huniq x hxl y hyl hpx hpy]

/-- Elements of a list with `Nodup` image under `f` are determined by
their image. -/
theorem mem_nodupMap_unique {α β : Type} (f : α → β) (l : List α)
    (h : (l.map f).Nodup) :
    ∀ x ∈ l, ∀ y ∈ l, f x = f y → x = y := by
  induction l with
  | nil => intro x hx; exact absurd hx (List.not_mem_nil x)
  | cons z l ih =>
    simp only [List.map_cons, List.nodup_cons] at h
    intro x hx y hy hf
    rcases List.mem_cons.mp hx with hx1 | hx2
    · rcases List.mem_cons.mp hy with hy1 | hy2
      · rw [hx1, hy1]
      · exact absurd
          (show f z ∈ l.map f from List.mem_map.mpr ⟨y, hy2, (hx1 ▸ hf).symm⟩) h.1
    · rcases List.mem_cons.mp hy with hy1 | hy2
      · exact absurd (show f z ∈ l.map f from List.mem_map.mpr ⟨x, hx2, hy1 ▸ hf⟩) h.1
      · exact ih h.2 x hx2 y hy2 hf

/-- Lookup as a search on the entry list. -/
theorem mapLookup_as_find {α : Type} (t : String) (m : List (String × α)) :
    mapLookup t m = (m.find? (fun p => p.1 == t)).map (·.2) := by
  induction m with
  | nil => rfl
  | cons p m ih =>
    show (if p.1 = t then some p.2 else mapLookup t m) = _
    by_cases hp : p.1 = t
    · rw [if_pos hp, List.find?_cons_of_pos _ (by simp [hp])]
      rfl
    · rw [if_neg hp, List.find?_cons_of_neg _ (by simp [hp]), ih]

theorem mapLookup_some_mem {α : Type} (k : String) (v : α) (m : List (String × α))
    (h : mapLookup k m = some v) : (k, v) ∈ m := by
  induction m with
  | nil => exact Option.noConfusion h
  | cons p m ih =>
    by_cases hp : p.1 = k
    · rw [show mapLookup k (p :: m) = some p.2 from by simp [mapLookup, hp]] at h
      have : p = (k, v) := by
        rcases p with ⟨p1, p2⟩
        simp at hp
        simp at h
        rw [hp, h]
      exact this ▸ List.mem_cons_self p m
    · rw [show mapLookup k (p :: m) = mapLookup k m from by simp [mapLookup, hp]] at h
      exact List.mem_cons_of_mem p (ih h)

/-- Membership in `aliasesFor` is exactly holding a binding to the
tag. -/
theorem mem_aliasesFor (al : List (String × String)) (t : String) (x : String) :
    x ∈ aliasesFor al t ↔ (x, t) ∈ al := by
  simp only [aliasesFor, List.mem_map, List.mem_filter]
  constructor
  · rintro ⟨p, ⟨hp, hpt⟩, hpx⟩
    have : p = (x, t) := by
      rcases p with ⟨p1, p2⟩
      simp at hpt hpx
      rw [hpx, hpt]
    exact this ▸ hp
  · intro h
    exact ⟨(x, t), ⟨h, by simp⟩, rfl⟩

/-- Behaviour of the deserialization loop: with distinct tags and
pairwise-disjoint alias sets it succeeds, the version map holds one
entry per element, and the alias map binds each listed alias to its
element's tag. -/
theorem from_document_go_spec :
    ∀ (items : List VersionWithAliases) (vmap : List (String × Version))
      (amap : List (String × String)),
      (items.map (·.version)).Nodup →
      (∀ it ∈ items, mapLookup it.version vmap = none) →
      items.Pairwise (fun i j => ∀ x ∈ i.aliases, x ∉ j.aliases) →
      ∃ V A, from_document_go items vmap amap = .ok ⟨V, A⟩ ∧
        (∀ t, mapLookup t V =
          (match items.find? (fun it => it.version == t) with
           | some it => some (Version.new it.version it.title)
           | none => mapLookup t vmap)) ∧
        (∀ a, mapLookup a A =
          (match items.find? (fun it => decide (a ∈ it.aliases)) with
           | some it => some it.version
           | none => mapLookup a amap)) := by
  intro items
  induction items with
  | nil =>
    intro vmap amap _ _ _
    exact ⟨vmap, amap, rfl, fun t => rfl, fun a => rfl⟩
  | cons it rest ih =>
    intro vmap amap hnd hvm hdisj
    simp only [List.map_cons, List.nodup_cons] at hnd
    rcases List.pairwise_cons.mp hdisj with ⟨hd, hdisj2⟩
    have hme : mapLookup it.version vmap = none := hvm it (List.mem_cons_self it rest)
    have step : from_document_go (it :: rest) vmap amap =
        from_document_go rest (mapInsert it.version (Version.new it.version it.title) vmap)
          (it.aliases.foldl (fun m a => mapInsert a it.version m) amap) := by
      show (if (mapLookup it.version vmap).isSome then _ else _) = _
      rw [hme]
      rfl
    obtain ⟨V, A, hgo, hV, hA⟩ :=
      ih (mapInsert it.version (Version.new it.version it.title) vmap)
        (it.aliases.foldl (fun m a => mapInsert a it.version m) amap)
        hnd.2
        (fun it' hit' => by
          rw [mapInsert_lookup, if_neg (fun he : it.version = it'.version =>
            hnd.1 (List.mem_map.mpr ⟨it', hit', he.symm⟩))]
          exact hvm it' (List.mem_cons_of_mem it hit'))
        hdisj2
    refine ⟨V, A, step.trans hgo, ?_, ?_⟩
    · intro t
      rw [hV t]
      by_cases ht : it.version = t
      · have hfr : rest.find? (fun it' => it'.version == t) = none := by
          rw [List.find?_eq_none]
          intro x hx hpx
          have hxv : x.version = t := by simpa using hpx
          exact hnd.1 (List.mem_map.mpr ⟨x, hx, hxv.trans ht.symm⟩)
        rw [hfr, List.find?_cons_of_pos _ (by simp [ht]), mapInsert_lookup, if_pos ht]
      · rw [List.find?_cons_of_neg _ (by simp [ht])]
        cases hfr : rest.find? (fun it' => it'.version == t) with
        | some it' => rfl
        | none => rw [mapInsert_lookup, if_neg ht]
    · intro a
      rw [hA a]
      by_cases ha : a ∈ it.aliases
      · have hfr : rest.find? (fun it' => decide (a ∈ it'.aliases)) = none := by
          rw [List.find?_eq_none]
          intro x hx hpx
          exact hd x hx a ha (by simpa using hpx)
        rw [hfr, List.find?_cons_of_pos _ (by simpa using ha),
          foldl_mapInsert_lookup, if_pos ha]
      · rw [List.find?_cons_of_neg _ (by simpa using ha)]
        cases hfr : rest.find? (fun it' => decide (a ∈ it'.aliases)) with
        | some it' => rfl
        | none => rw [foldl_mapInsert_lookup, if_neg ha]

/-- Serde round-trips a `VersionWithAliases` losslessly through JSON. -/
theorem decode_encode (v : VersionWithAliases) :
    decodeVersionWithAliases (encodeVersionWithAliases v) = .ok v := by
  rcases v with ⟨ver, ti, al⟩
  cases ti <;>
    simp [encodeVersionWithAliases, decodeVersionWithAliases, decodeStr, decodeStrList,
      fieldCount, mapLookup, bind, Except.bind, pure, Except.pure, List.mapM,
      mapM_loop_decodeStr]

theorem mapM_loop_decode_encode (items : List VersionWithAliases) :
    ∀ acc : List VersionWithAliases,
      List.mapM.loop decodeVersionWithAliases (items.map encodeVersionWithAliases) acc =
        Except.ok (acc.reverse ++ items) := by
  induction items with
  | nil =>
    intro acc
    simp [List.mapM.loop, pure, Except.pure]
  | cons v items ih =>
    intro acc
    simp [List.mapM.loop, decode_encode, bind, Except.bind, ih]

/-- Deserializing the serialized JSON document goes through
`from_document` on the serialized elements. -/
theorem from_json_to_json (vs : Versions) :
    Versions.from_json vs.to_json = Versions.from_document vs.to_document := by
  show (match Json.arr (vs.to_document.map encodeVersionWithAliases) with
    | Json.arr xs => xs.mapM decodeVersionWithAliases >>= Versions.from_document
    | _ => Except.error "invalid type: expected a sequence") = _
  simp [List.mapM, mapM_loop_decode_encode, bind, Except.bind]

/-- C1 (amended): for a well-formed registry (map keys equal the stored
tags, unique tags, unique alias keys, every alias targeting a stored
version), deserializing the serialized JSON document succeeds and
reproduces every tag and every alias binding exactly, and reproduces
each title up to the write-time defaulting: a version stored with no
title round-trips to a version whose title is its tag. -/
theorem round_trip_document (R : Versions)
    (hk : ∀ p ∈ R.versions, p.1 = p.2.tag)
    (hnd : (R.versions.map (·.1)).Nodup)
    (hand : (R.aliases.map (·.1)).Nodup)
    (htgt : ∀ p ∈ R.aliases, ∃ v ∈ R.values, v.tag = p.2) :
    ∃ R' : Versions, Versions.from_json R.to_json = .ok R' ∧
      (∀ t, mapLookup t R'.versions =
        (mapLookup t R.versions).map
          (fun v => Version.new v.tag (some (v.title.getD v.tag)))) ∧
      (∀ a, mapLookup a R'.aliases = mapLookup a R.aliases) := by
  have hdoc : R.to_document = (sortByCmp R.values).map
      (fun v => VersionWithAliases.mk v.tag (some (v.title.getD v.tag))
        (aliasesFor R.aliases v.tag)) := rfl
  have hperm : (sortByCmp R.values).Perm R.values := sortByCmp_perm _
  have hvtags : R.values.map (·.tag) = R.versions.map (·.1) := by
    show (R.versions.map (·.2)).map (·.tag) = _
    rw [List.map_map]
    exact List.map_congr_left (fun p hp => (hk p hp).symm)
  have hvnd : (R.values.map (·.tag)).Nodup := hvtags ▸ hnd
  have hsnd : ((sortByCmp R.values).map (·.tag)).Nodup :=
    ((hperm.map (·.tag)).nodup_iff).mpr hvnd
  have hitags : R.to_document.map (·.version) = (sortByCmp R.values).map (·.tag) := by
    rw [hdoc, List.map_map]
    exact List.map_congr_left (fun v _ => rfl)
  have hind : (R.to_document.map (·.version)).Nodup := hitags ▸ hsnd
  have hsym2 : Symmetric (fun i j : VersionWithAliases =>
      ∀ x ∈ i.aliases, x ∉ j.aliases) := by
    intro i j hij x hxj hxi
    exact hij x hxi hxj
  have hdisj : R.to_document.Pairwise (fun i j => ∀ x ∈ i.aliases, x ∉ j.aliases) := by
    rw [hdoc, List.pairwise_map]
    have hsymv : Symmetric (fun v w : Version =>
        ∀ x ∈ aliasesFor R.aliases v.tag, x ∉ aliasesFor R.aliases w.tag) := by
      intro v w hvw x hxw hxv
      exact hvw x hxv hxw
    show (sortByCmp R.values).Pairwise (fun v w =>
      ∀ x ∈ aliasesFor R.aliases v.tag, x ∉ aliasesFor R.aliases w.tag)
    refine (List.Perm.pairwise_iff (fun {v w} hvw => hsymv hvw) hperm).mpr ?_
    have hppair : R.values.Pairwise (fun v w => v.tag ≠ w.tag) :=
      List.pairwise_map.mp hvnd
    refine hppair.imp ?_
    intro v w hne x hxv hxw
    rw [mem_aliasesFor] at hxv hxw
    exact hne (congrArg Prod.snd
      (mem_nodupMap_unique (fun p : String × String => p.1) R.aliases hand
        (x, v.tag) hxv (x, w.tag) hxw rfl))
  obtain ⟨V, A, hgo, hV, hA⟩ :=
    from_document_go_spec R.to_document [] [] hind (fun it _ => rfl) hdisj
  have hfrom : Versions.from_json R.to_json = .ok ⟨V, A⟩ := by
    rw [from_json_to_json]
    exact hgo
  refine ⟨⟨V, A⟩, hfrom, ?_, ?_⟩
  · intro t
    show mapLookup t V = _
    rw [hV t]
    have e1 : R.to_document.find? (fun it => it.version == t) =
        ((sortByCmp R.values).find? (fun v => v.tag == t)).map
          (fun v => VersionWithAliases.mk v.tag (some (v.title.getD v.tag))
            (aliasesFor R.aliases v.tag)) := by
      rw [hdoc]
      exact find?_map_comp _ _ _
    have e2 : (sortByCmp R.values).find? (fun v => v.tag == t) =
        R.values.find? (fun v => v.tag == t) :=
      find?_perm_of_unique (fun v => v.tag == t) _ _ hperm
        (fun x hx y hy hpx hpy =>
          mem_nodupMap_unique (·.tag) _ hsnd x hx y hy
            ((beq_iff_eq.mp hpx).trans (beq_iff_eq.mp hpy).symm))
    have e3 : R.values.find? (fun v => v.tag == t) =
        (R.versions.find? (fun p => p.2.tag == t)).map (·.2) :=
      find?_map_comp _ _ _
    have e4 : R.versions.find? (fun p => p.2.tag == t) =
        R.versions.find? (fun p => p.1 == t) :=
      find?_congr_pred _ _ _
        (fun p hp => by rw [show p.2.tag = p.1 from (hk p hp).symm])
    rw [e1, e2, e3, e4, mapLookup_as_find t R.versions]
    cases R.versions.find? (fun p => p.1 == t) with
    | none => rfl
    | some p => rfl
  · intro a
    show mapLookup a A = _
    rw [hA a]
    cases hm : mapLookup a R.aliases with
    | some t =>
      have hmem : (a, t) ∈ R.aliases := mapLookup_some_mem a t R.aliases hm
      obtain ⟨v, hv, hvt⟩ := htgt (a, t) hmem
      have hitem : VersionWithAliases.mk v.tag (some (v.title.getD v.tag))
          (aliasesFor R.aliases v.tag) ∈ R.to_document := by
        rw [hdoc]
        exact List.mem_map_of_mem _ (hperm.mem_iff.mpr hv)
      have hsat : decide (a ∈ (VersionWithAliases.mk v.tag (some (v.title.getD v.tag))
          (aliasesFor R.aliases v.tag)).aliases) = true := by
        rw [decide_eq_true_eq]
        exact (mem_aliasesFor _ _ _).mpr (hvt.symm ▸ hmem)
      cases hf : R.to_document.find? (fun it => decide (a ∈ it.aliases)) with
      | none =>
        rw [List.find?_eq_none] at hf
        exact absurd hsat (hf _ hitem)
      | some it0 =>
        have hp0 : a ∈ it0.aliases := by
          have := List.find?_some hf
          simpa using this
        have hm0 : it0 ∈ R.to_document := List.mem_of_find?_eq_some hf
        have huniq : it0 = VersionWithAliases.mk v.tag (some (v.title.getD v.tag))
            (aliasesFor R.aliases v.tag) := by
          by_contra hne
          exact hdisj.forall hsym2 hm0 hitem hne a hp0 (by simpa using hsat)
        rw [huniq]
        show some v.tag = some t
        rw [hvt]
    | none =>
      have hna : a ∉ R.aliases.map (·.1) := (mapLookup_eq_none_iff a R.aliases).mp hm
      have hf : R.to_document.find? (fun it => decide (a ∈ it.aliases)) = none := by
        rw [List.find?_eq_none]
        intro it hit hsat
        rw [hdoc] at hit
        rcases List.mem_map.mp hit with ⟨v, _, rfl⟩
        have hav : (a, v.tag) ∈ R.aliases := (mem_aliasesFor _ _ _).mp (by simpa using hsat)
        exact hna (List.mem_map.mpr ⟨(a, v.tag), hav, rfl⟩)
      rw [hf]
      rfl

theorem round_trip_document_witness :
    ∃ R' : Versions, Versions.from_json regTwo.to_json = .ok R' ∧
      (∀ t, mapLookup t R'.versions =
        (mapLookup t regTwo.versions).map
          (fun v => Version.new v.tag (some (v.title.getD v.tag)))) ∧
      (∀ a, mapLookup a R'.aliases = mapLookup a regTwo.aliases) :=
  round_trip_document regTwo (by decide) (by decide) (by decide) (by decide)

/-- C1 counterexample: a version stored with no title round-trips to a
version whose title is its tag (not to a version with no title), and a
dangling alias binding (targeting a tag not stored in the version map)
is dropped by the round trip. -/
theorem round_trip_counterexample :
    Versions.from_json ((Versions.mk [("1.0.0", ⟨"1.0.0", none⟩)] [("old", "0.9")]).to_json) =
      .ok ⟨[("1.0.0", ⟨"1.0.0", some "1.0.0"⟩)], []⟩ ∧
    (⟨"1.0.0", some "1.0.0"⟩ : Version) ≠ ⟨"1.0.0", none⟩ ∧
    mapLookup "old" ([] : List (String × String)) ≠
      mapLookup "old" [("old", "0.9")] := ⟨rfl, by decide, by decide⟩

end Docver
